import Mathlib

/-!
Verification of the path-resolution boundary and archive/listing pipeline of
the HFS file-sharing server (`src-tauri/src/http.rs`).

Filesystem paths are modelled by their component lists (`List String`), which
matches Rust `PathBuf` semantics: `join`, `parent`, `file_name` and
`strip_prefix` all operate on components, and `PathBuf` equality is
component-wise.  The filesystem itself is a finite tree; each directory node
carries a `readOk` flag (whether `read_dir` succeeds there) and each file node
an `openOk` flag (whether `File::open` succeeds) plus the size reported by
`metadata()` (`none` when `metadata()` fails).
-/

namespace HFS

/-- Byte-level prefix test (Rust `str::starts_with`); on UTF-8 strings the
character-list prefix test is equivalent. -/
def strStartsWith (s pre : String) : Bool :=
  pre.data.isPrefixOf s.data

/-- Drop the first `n` characters (Rust byte slicing `&s[n..]` at a char
boundary, which is where the code uses it). -/
def strDrop (s : String) (n : Nat) : String :=
  ⟨s.data.drop n⟩

/-- Components of a path string, as produced by Rust's `Path::components`:
split on `/`, dropping empty and `.` segments. -/
def splitPath (s : String) : List String :=
  (((s.data.splitOn '/').map (fun cs => (⟨cs⟩ : String))).filter
    (fun c => c != "" && c != "."))

/-- Rust `str::trim_matches('/')`: remove all leading and trailing slashes. -/
def trimSlashes (s : String) : String :=
  (((s.toList.dropWhile (· == '/')).reverse.dropWhile (· == '/')).reverse).asString

/-- Rust `Path::file_name` on a component list: the last component, or `none`
when there is none or it is `..`. -/
def fileNameOf (comps : List String) : Option String :=
  match comps.getLast? with
  | none => none
  | some n => if n = ".." then none else some n

/-- Rust `PathBuf::join` with a string argument: an absolute right-hand side
replaces the base path, otherwise its components are appended. -/
def joinPath (base : List String) (rest : String) : List String :=
  if strStartsWith rest "/" then splitPath rest else base ++ splitPath rest

/-- Rust `Path::strip_prefix(pre).unwrap_or(p)` on component lists: drop the
prefix when it is one, otherwise keep the whole path. -/
def stripPrefixComps (p pre : List String) : List String :=
  if pre.isPrefixOf p then p.drop pre.length else p

/-- Substring scan on character lists: does `pat` occur contiguously? -/
def infixScan (pat : List Char) : List Char → Bool
  | [] => pat.isPrefixOf []
  | c :: rest => pat.isPrefixOf (c :: rest) || infixScan pat rest

/-- Rust `str::contains("..")`: substring (not segment) test. -/
def containsDotDot (s : String) : Bool :=
  infixScan "..".data s.data

/-- Whether the path has an actual `..` segment (the spec's notion of a
traversal attempt): one of its `/`-separated segments is exactly `..`. -/
def hasDotDotSegment (s : String) : Bool :=
  (s.data.splitOn '/').contains ['.', '.']

/-- Loop body of `resolve_path` (`http.rs` lines 71-81).  Note the `?` on
`item_path.file_name()?`: a shared item without a final path component makes
the whole function return `None` immediately, it is not merely skipped. -/
def resolveGo (rp : String) : List String → Option (List String)
  | [] => none
  | item :: rest =>
    match fileNameOf (splitPath item) with
    | none => none
    | some name =>
      if rp = name then some (splitPath item)
      else if strStartsWith rp (name ++ "/") then
        some (joinPath (splitPath item) (strDrop rp (name.length + 1)))
      else resolveGo rp rest

/-- Model of `resolve_path` (`http.rs` lines 66-83): trim slashes, reject the empty
path, then scan the shared items in configuration order. -/
def resolve_path (shared_items : List String) (relative_path : String) :
    Option (List String) :=
  let rp := trimSlashes relative_path
  if rp = "" then none else resolveGo rp shared_items

/-- Modelled from the spec's words for claim C1: whether a shared root's share
name matches the (trimmed) relative path, exactly or as a `/`-separated
prefix. -/
def rootMatches (rp : String) (item : String) : Bool :=
  match fileNameOf (splitPath item) with
  | none => false
  | some name => decide (rp = name) || strStartsWith rp (name ++ "/")

/-- Modelled from the spec's words for claim C1 (§4.1/§8): the first root
whose share name matches wins; the root itself for an exact match, the root
joined with the remainder for a prefix match; `none` otherwise. -/
def resolveSpec (shared_items : List String) (relative_path : String) :
    Option (List String) :=
  let rp := trimSlashes relative_path
  if rp = "" then none
  else
    match shared_items.find? (rootMatches rp) with
    | none => none
    | some item =>
      match fileNameOf (splitPath item) with
      | none => none
      | some name =>
        if rp = name then some (splitPath item)
        else some (joinPath (splitPath item) (strDrop rp (name.length + 1)))

/-- A finite filesystem tree.  `dir readOk children` is a directory whose
`read_dir` succeeds iff `readOk`; `file openOk size` is a regular file whose
`File::open` succeeds iff `openOk`, with `size` the result of `metadata()`
(`none` when `metadata()` errors). -/
inductive FsTree where
  | file (openOk : Bool) (size : Option Nat)
  | dir (readOk : Bool) (children : List (String × FsTree))

/-- First child with the given name, as a directory lookup finds it. -/
def findChild (cs : List (String × FsTree)) (n : String) : Option FsTree :=
  match cs.find? (fun c => c.1 == n) with
  | none => none
  | some c => some c.2

/-- Resolve a component path against the filesystem tree (a stat). -/
def lookup : FsTree → List String → Option FsTree
  | t, [] => some t
  | .file _ _, _ :: _ => none
  | .dir _ cs, n :: rest =>
    match findChild cs n with
    | none => none
    | some c => lookup c rest

/-- Whether a node is a directory (Rust `file_type().is_dir()`). -/
def isDirNode : FsTree → Bool
  | .dir _ _ => true
  | .file _ _ => false

/-- Result of `metadata().ok().map(|m| m.len())` of a node. -/
def nodeSize : FsTree → Option Nat
  | .file _ sz => sz
  | .dir _ _ => none

/-- Rust `Path::exists` at a component path. -/
def pathExists (fs : FsTree) (p : List String) : Bool :=
  (lookup fs p).isSome

/-- Rust `Path::is_dir` at a component path. -/
def isDirAt (fs : FsTree) (p : List String) : Bool :=
  match lookup fs p with
  | some t => isDirNode t
  | none => false

/-- Rust `Path::is_file` at a component path. -/
def isFileAt (fs : FsTree) (p : List String) : Bool :=
  match lookup fs p with
  | some (.file _ _) => true
  | _ => false

/-- Whether `File::open` succeeds at a component path. -/
def fileOpenAt (fs : FsTree) (p : List String) : Bool :=
  match lookup fs p with
  | some (.file oo _) => oo
  | _ => false

/-- Result of `metadata().ok().map(|m| m.len())` at a component path. -/
def sizeAt (fs : FsTree) (p : List String) : Option Nat :=
  match lookup fs p with
  | some t => nodeSize t
  | none => none

/-- Model of `tokio::fs::read_dir` at a component path: the children when the path is
a directory whose enumeration succeeds, `none` (an I/O error) otherwise. -/
def readDirAt (fs : FsTree) (p : List String) : Option (List (String × FsTree)) :=
  match lookup fs p with
  | some (.dir true cs) => some cs
  | _ => none

/-- Children of the directory at a path (empty if unreadable or not a dir). -/
def childrenAt (fs : FsTree) (p : List String) : List (String × FsTree) :=
  (readDirAt fs p).getD []

/-- One row of the JSON listing (`struct FileEntry` in `http.rs`). -/
structure FileEntry where
  name : String
  path : String
  is_dir : Bool
  size : Option Nat
deriving DecidableEq, Repr

/-- The sort comparator of `browse_handler` (`http.rs` lines 153-161):
directories before files, ties broken by name comparison. -/
def entryCmp (a b : FileEntry) : Ordering :=
  if a.is_dir = b.is_dir then
    if a.name < b.name then .lt else if a.name = b.name then .eq else .gt
  else if a.is_dir then .lt
  else .gt

/-- Le relation induced by `entryCmp`, as used by a stable sort:
`a` may stay before `b` iff the comparator does not say `Greater`. -/
def entryLe (a b : FileEntry) : Bool :=
  !(entryCmp a b == .gt)

/-- Root branch of `browse_handler` (`http.rs` lines 108-123): one entry per
shared folder that has a final path component, named by that component. -/
def browseRootEntries (fs : FsTree) (folders : List String) : List FileEntry :=
  folders.filterMap (fun folder =>
    match fileNameOf (splitPath folder) with
    | none => none
    | some name =>
      some { name := name
             path := name
             is_dir := isDirAt fs (splitPath folder)
             size := if isFileAt fs (splitPath folder)
                     then sizeAt fs (splitPath folder) else none })

/-- Child rows of the sub-path branch of `browse_handler` (`http.rs` lines
133-147): skip names starting with `.`, record kind, size for non-dirs, and
the relative path `req_path_clean/name`. -/
def browseChildEntries (reqPathClean : String) (cs : List (String × FsTree)) :
    List FileEntry :=
  cs.filterMap (fun c =>
    if strStartsWith c.1 "." then none
    else
      some { name := c.1
             path := reqPathClean ++ "/" ++ c.1
             is_dir := isDirNode c.2
             size := if !isDirNode c.2 then nodeSize c.2 else none })

/-- The unsorted entry list `browse_handler` accumulates before sorting. -/
def browsePre (fs : FsTree) (folders : List String) (reqPath : String) :
    List FileEntry :=
  let reqPathClean := trimSlashes reqPath
  if reqPathClean = "" then browseRootEntries fs folders
  else
    match resolve_path folders reqPathClean with
    | none => []
    | some rp =>
      match readDirAt fs rp with
      | none => []
      | some cs => browseChildEntries reqPathClean cs

/-- Model of `browse_handler` (`http.rs` lines 99-164): build the entries, then apply
the stable sort `entries.sort_by(...)` with the dirs-first comparator.  The
handler is total: it always answers with a JSON list, never an error. -/
def browse (fs : FsTree) (folders : List String) (reqPath : String) :
    List FileEntry :=
  (browsePre fs folders reqPath).mergeSort entryLe

/-- The HTTP error statuses the download/zip handlers can produce. -/
inductive HErr where
  | Forbidden
  | NotFound
  | Internal
deriving DecidableEq, Repr

/-- Model of `file_handler` (`http.rs` lines 166-195): reject `..` substrings, resolve,
require an existing non-directory, then open; success carries the resolved
path whose bytes are streamed. -/
def file_handler (fs : FsTree) (folders : List String) (path : String) :
    Except HErr (List String) :=
  if containsDotDot path then .error .Forbidden
  else
    match resolve_path folders path with
    | none => .error .NotFound
    | some file_path =>
      if !pathExists fs file_path || isDirAt fs file_path then .error .NotFound
      else if fileOpenAt fs file_path then .ok file_path
      else .error .Internal

mutual

/-- Entry names produced by the traversal of `zip_folder_handler`'s spawned
task (`http.rs` lines 228-258).  The source drives the depth-first walk with
an explicit stack whose sibling order is unspecified (§4.4 forbids relying on
entry order); the walk is embedded structurally, producing the same entry set.
An unreadable directory is skipped with its subtree; an unopenable file is
skipped; each produced file entry is named `path.strip_prefix(parent)`. -/
def zipWalkNames (parentPath dirPath : List String) : FsTree → List String
  | .file _ _ => []
  | .dir readOk cs => if readOk then zipWalkChildren parentPath dirPath cs else []

/-- Per-entry handling of the folder-zip walk: subdirectories are traversed
(the source pushes them on the stack), regular files that open successfully
get an archive entry named relative to `parentPath`. -/
def zipWalkChildren (parentPath dirPath : List String) :
    List (String × FsTree) → List String
  | [] => []
  | (n, c) :: rest =>
    (match c with
     | .dir readOk cs => zipWalkNames parentPath (dirPath ++ [n]) (.dir readOk cs)
     | .file oo _ =>
       if oo then
         [String.intercalate "/" (stripPrefixComps (dirPath ++ [n]) parentPath)]
       else []) ++
    zipWalkChildren parentPath dirPath rest

end

/-- Model of `zip_folder_handler` (`http.rs` lines 201-268): reject `..` substrings,
resolve, require an existing directory, then stream the archive whose entries
are named relative to `target_path.parent().unwrap_or(&target_path)` (which is
`dropLast` on component lists, for the empty path as well). -/
def zip_folder_handler (fs : FsTree) (folders : List String) (path : String) :
    Except HErr (List String) :=
  if containsDotDot path then .error .Forbidden
  else
    match resolve_path folders path with
    | none => .error .NotFound
    | some target_path =>
      match lookup fs target_path with
      | some (.dir readOk cs) =>
        .ok (zipWalkNames target_path.dropLast target_path (.dir readOk cs))
      | _ => .error .NotFound

mutual

/-- Entry names produced for one selected directory by the spawned task of
`zip_selection_handler` (`http.rs` lines 303-344): same stack-driven walk as
the folder form (embedded structurally, same entry set), but each file is
named `format!("{}/{}", rel_path, path.strip_prefix(&full_path))`. -/
def selWalkNames (relPath : String) (fullPath dirPath : List String) :
    FsTree → List String
  | .file _ _ => []
  | .dir readOk cs => if readOk then selWalkChildren relPath fullPath dirPath cs else []

/-- Per-entry handling of the selection walk. -/
def selWalkChildren (relPath : String) (fullPath dirPath : List String) :
    List (String × FsTree) → List String
  | [] => []
  | (n, c) :: rest =>
    (match c with
     | .dir readOk cs => selWalkNames relPath fullPath (dirPath ++ [n]) (.dir readOk cs)
     | .file oo _ =>
       if oo then
         [relPath ++ "/" ++
           String.intercalate "/" (stripPrefixComps (dirPath ++ [n]) fullPath)]
       else []) ++
    selWalkChildren relPath fullPath dirPath rest

end

/-- Entries contributed by one requested path of the selection body
(`http.rs` lines 288-346): skip it when it contains `..`, fails to resolve,
or is neither file nor directory; a file is entered under the requested
relative path verbatim; a directory is walked recursively. -/
def selItemEntries (fs : FsTree) (folders : List String) (rel_path : String) :
    List String :=
  if containsDotDot rel_path then []
  else
    match resolve_path folders rel_path with
    | none => []
    | some full_path =>
      match lookup fs full_path with
      | some (.file oo _) => if oo then [rel_path] else []
      | some (.dir readOk cs) =>
        selWalkNames rel_path full_path full_path (.dir readOk cs)
      | none => []

/-- Entry names of the archive produced by `zip_selection_handler`
(`http.rs` lines 275-357); the handler itself always answers with a stream. -/
def zip_selection_entries (fs : FsTree) (folders : List String)
    (files : List String) : List String :=
  files.flatMap (selItemEntries fs folders)

mutual

/-- The descendant regular files of a tree node, each as its component path
relative to that node.  This is the claims' notion of "regular file reachable
from the target", independent of the traversal code. -/
def filesRel : FsTree → List (List String)
  | .file _ _ => []
  | .dir _ cs => filesRelChildren cs

/-- Extension of `filesRel` over a child list, prefixing each child's name. -/
def filesRelChildren : List (String × FsTree) → List (List String)
  | [] => []
  | (n, c) :: rest =>
    (match c with
     | .file _ _ => [[n]]
     | .dir readOk cs => (filesRel (.dir readOk cs)).map (fun q => n :: q)) ++
    filesRelChildren rest

end

mutual

/-- No I/O failure anywhere in the subtree: every directory is readable and
every file can be opened.  Under this condition the best-effort skipping of
§4.4 never triggers. -/
def allOk : FsTree → Bool
  | .file oo _ => oo
  | .dir readOk cs => readOk && allOkChildren cs

/-- Extension of `allOk` over a child list. -/
def allOkChildren : List (String × FsTree) → Bool
  | [] => true
  | (_, c) :: rest => allOk c && allOkChildren rest

end

/-- Modelled from the spec's words for claim C3 (§4.4 selection form): the
member names one selected item should contribute — the request string itself
for a file, `request ++ "/" ++ descendant-relative-path` for each descendant
regular file of a directory. -/
def specSelItem (fs : FsTree) (folders : List String) (rel_path : String) :
    List String :=
  if containsDotDot rel_path then []
  else
    match resolve_path folders rel_path with
    | none => []
    | some full_path =>
      match lookup fs full_path with
      | none => []
      | some (.file _ _) => [rel_path]
      | some t =>
        (filesRel t).map (fun q => rel_path ++ "/" ++ String.intercalate "/" q)

/-- Whether a selected item hits no I/O failure: whatever it resolves to (if
anything) has an all-successful subtree. -/
def selItemOk (fs : FsTree) (folders : List String) (rel_path : String) : Bool :=
  if containsDotDot rel_path then true
  else
    match resolve_path folders rel_path with
    | none => true
    | some full_path =>
      match lookup fs full_path with
      | none => true
      | some t => allOk t

/-! ## Helper lemmas -/

theorem infixScan_of_infix {pat l : List Char} (h : pat <:+: l) :
    infixScan pat l = true := by
  induction l with
  | nil =>
    rw [List.infix_nil] at h
    simp [infixScan, h]
  | cons c rest ih =>
    rw [List.infix_cons_iff] at h
    cases h with
    | inl hp => simp [infixScan, List.isPrefixOf_iff_prefix, hp]
    | inr hi => simp [infixScan, ih hi]

theorem infix_intercalate_of_mem {α : Type} {l : List α} (sep : List α) :
    ∀ ls : List (List α), l ∈ ls → l <:+: sep.intercalate ls := by
  intro ls
  induction ls with
  | nil => intro h; cases h
  | cons a tl ih =>
    intro h
    cases tl with
    | nil =>
      simp only [List.mem_singleton] at h
      subst h
      simp [List.intercalate]
    | cons b tl' =>
      rw [List.mem_cons] at h
      have hshape : sep.intercalate (a :: b :: tl') =
          a ++ (sep ++ sep.intercalate (b :: tl')) := by
        simp [List.intercalate, List.intersperse_cons_cons]
      cases h with
      | inl hl =>
        subst hl
        rw [hshape]
        exact (List.prefix_append _ _).isInfix
      | inr hr =>
        have := ih hr
        rw [hshape]
        calc l <:+: sep.intercalate (b :: tl') := this
          _ <:+: a ++ (sep ++ sep.intercalate (b :: tl')) := by
              exact ((List.suffix_append _ _).isInfix).trans
                ((List.suffix_append _ _).isInfix)

theorem containsDotDot_of_segment {s : String}
    (h : hasDotDotSegment s = true) : containsDotDot s = true := by
  have hmem : ['.', '.'] ∈ s.data.splitOn '/' := by
    simpa [hasDotDotSegment] using h
  have hinf : ['.', '.'] <:+: ['/'].intercalate (s.data.splitOn '/') :=
    infix_intercalate_of_mem _ _ hmem
  rw [List.intercalate_splitOn] at hinf
  simpa [containsDotDot] using infixScan_of_infix hinf

theorem stripPrefixComps_append (pre l : List String) :
    stripPrefixComps (pre ++ l) pre = l := by
  have hp : pre.isPrefixOf (pre ++ l) = true := by
    rw [List.isPrefixOf_iff_prefix]
    exact List.prefix_append _ _
  simp [stripPrefixComps, hp]

theorem resolveGo_eq_find (rp : String) (items : List String)
    (h : ∀ item ∈ items, (fileNameOf (splitPath item)).isSome = true) :
    resolveGo rp items =
      match items.find? (rootMatches rp) with
      | none => none
      | some item =>
        match fileNameOf (splitPath item) with
        | none => none
        | some name =>
          if rp = name then some (splitPath item)
          else some (joinPath (splitPath item) (strDrop rp (name.length + 1))) := by
  induction items with
  | nil => simp [resolveGo]
  | cons item rest ih =>
    obtain ⟨name, hname⟩ : ∃ n, fileNameOf (splitPath item) = some n := by
      have hsome := h item (by simp)
      cases hn : fileNameOf (splitPath item)
      · rw [hn] at hsome; simp at hsome
      · exact ⟨_, rfl⟩
    by_cases heq : rp = name
    · simp [resolveGo, List.find?_cons, rootMatches, hname, heq]
    · by_cases hpre : strStartsWith rp (name ++ "/") = true
      · simp [resolveGo, List.find?_cons, rootMatches, hname, heq, hpre]
      · have hm : rootMatches rp item = false := by
          simp [rootMatches, hname, heq, hpre]
        rw [resolveGo, hname]
        rw [List.find?_cons, hm]
        simp only [heq, hpre, if_false, ite_false]
        exact ih (fun i hi => h i (List.mem_cons_of_mem _ hi))

/-! ## Claims -/

/-- Claim C1, counterexample: the claim's resolution rule (`resolveSpec`,
written from the spec's words) maps `"music"` to the second root
`/srv/music`, but `resolve_path` returns nothing because the first root `/`
has no final path component and the `?` operator aborts the whole scan. -/
theorem resolve_path_first_match_cex :
    resolveSpec ["/", "/srv/music"] "music" = some ["srv", "music"] ∧
    resolve_path ["/", "/srv/music"] "music" = none ∧
    resolve_path ["/", "/srv/music"] "music" ≠
      resolveSpec ["/", "/srv/music"] "music" := by
  refine ⟨by decide, by decide, by decide⟩

/-- Claim C1 (amended): provided every configured shared root has a final
path component (a share name), `resolve_path` behaves exactly as the claim
states: a trimmed relative path equal to some root's share name, or to that
share name plus `/` plus a suffix, resolves to the first matching root joined
with the suffix (the root itself for an exact match), and every other
relative path resolves to nothing — this is `resolveSpec`, the rule written
from the claim's words. -/
theorem resolve_path_eq_resolveSpec (shared_items : List String)
    (relative_path : String)
    (h : ∀ item ∈ shared_items, (fileNameOf (splitPath item)).isSome = true) :
    resolve_path shared_items relative_path =
      resolveSpec shared_items relative_path := by
  unfold resolve_path resolveSpec
  by_cases hrp : trimSlashes relative_path = ""
  · simp [hrp]
  · simp only [hrp, ite_false, if_neg]
    exact resolveGo_eq_find _ _ h

/-- Claim C1, witness: with two well-formed roots, a nested path under the
second root resolves to that root joined with the remainder. -/
theorem resolve_path_eq_resolveSpec_witness :
    resolve_path ["/srv/music", "/srv/photos"] "photos/2023/img.jpg" =
      resolveSpec ["/srv/music", "/srv/photos"] "photos/2023/img.jpg" ∧
    resolve_path ["/srv/music", "/srv/photos"] "photos/2023/img.jpg" =
      some ["srv", "photos", "2023", "img.jpg"] :=
  ⟨resolve_path_eq_resolveSpec _ _ (by decide), by decide⟩

/-- Claim C9: a shared root with no final path component (such as `/`) makes
`resolve_path` return nothing the moment the scan reaches it, regardless of
the roots listed after it — provided no earlier root matched, which is the
condition for the scan to reach it at all. -/
theorem resolve_path_aborts_at_nameless_root (pre post : List String)
    (bad : String) (p : String)
    (hbad : fileNameOf (splitPath bad) = none)
    (hpre : ∀ r ∈ pre, ∀ n, fileNameOf (splitPath r) = some n →
      trimSlashes p ≠ n ∧ strStartsWith (trimSlashes p) (n ++ "/") = false) :
    resolve_path (pre ++ bad :: post) p = none := by
  unfold resolve_path
  by_cases hrp : trimSlashes p = ""
  · simp [hrp]
  · simp only [hrp, ite_false, if_neg]
    induction pre with
    | nil => simp [resolveGo, hbad]
    | cons r rest ih =>
      rw [List.cons_append]
      cases hn : fileNameOf (splitPath r) with
      | none => simp [resolveGo, hn]
      | some n =>
        obtain ⟨hne, hsw⟩ := hpre r (by simp) n hn
        simp only [resolveGo, hn, hne, hsw, Bool.false_eq_true, if_false,
          ite_false]
        exact ih (fun r' hr' => hpre r' (List.mem_cons_of_mem _ hr'))

/-- Claim C9, witness: the root `/` sits between two named roots; resolution
of `"music"` fails even though the root after it would match, while the same
request against only the later root succeeds. -/
theorem resolve_path_aborts_at_nameless_root_witness :
    resolve_path ["/srv/a", "/", "/srv/music"] "music" = none ∧
    resolve_path ["/srv/music"] "music" = some ["srv", "music"] :=
  ⟨resolve_path_aborts_at_nameless_root ["/srv/a"] ["/srv/music"] "/" "music"
    (by decide) (by decide), by decide⟩

/-- Claim C2: a request path with a `..` segment makes both the single-file
download endpoint and the folder-zip endpoint answer `Forbidden`.  The
statement quantifies over every filesystem and every shared-root list: the
answer is the same for all of them, so it is produced before resolution and
before any filesystem access. -/
theorem dotdot_segment_forbidden (fs : FsTree) (folders : List String)
    (p : String) (h : hasDotDotSegment p = true) :
    file_handler fs folders p = .error .Forbidden ∧
    zip_folder_handler fs folders p = .error .Forbidden := by
  have hc := containsDotDot_of_segment h
  exact ⟨by simp [file_handler, hc], by simp [zip_folder_handler, hc]⟩

/-- Claim C2, witness: the spec's own scenario `music/../../etc/passwd`. -/
theorem dotdot_segment_forbidden_witness :
    file_handler (.dir true []) ["/srv/music"] "music/../../etc/passwd" =
      .error .Forbidden ∧
    zip_folder_handler (.dir true []) ["/srv/music"] "music/../../etc/passwd" =
      .error .Forbidden :=
  dotdot_segment_forbidden _ _ _ (by decide)

/-- Claim C10: the guard is a substring test, so any request path containing
`..` anywhere — also inside a single file name, with no `..` segment — is
refused by the download and folder-zip endpoints, and contributes nothing to
a selection archive wherever it appears in the request list. -/
theorem dotdot_substring_blocked (fs : FsTree) (folders : List String)
    (p : String) (h : containsDotDot p = true) :
    file_handler fs folders p = .error .Forbidden ∧
    zip_folder_handler fs folders p = .error .Forbidden ∧
    ∀ pre post, zip_selection_entries fs folders (pre ++ p :: post) =
      zip_selection_entries fs folders (pre ++ post) := by
  refine ⟨by simp [file_handler, h], by simp [zip_folder_handler, h], ?_⟩
  intro pre post
  simp [zip_selection_entries, selItemEntries, h]

/-- A small example share: `/srv/music` holding a plain file, a hidden file,
a readable subdirectory and an unreadable one. -/
def fsEx : FsTree :=
  .dir true [("srv", .dir true
    [("music", .dir true
      [("a.txt", .file true (some 1)),
       (".hidden", .file true (some 1)),
       ("sub", .dir true [("b.txt", .file true (some 2))]),
       ("locked", .dir false [("x", .file true none)])])])]

/-- A share holding a file whose name merely contains `..`. -/
def fsDots : FsTree :=
  .dir true [("srv", .dir true [("music", .dir true
    [("a..b.txt", .file true (some 1))])])]

/-- Claim C10, witness: `music/a..b.txt` has no `..` segment and resolves to
an existing openable file, yet the download and folder-zip endpoints refuse
it and the selection producer skips it. -/
theorem dotdot_substring_blocked_witness :
    hasDotDotSegment "music/a..b.txt" = false ∧
    pathExists fsDots ["srv", "music", "a..b.txt"] = true ∧
    file_handler fsDots ["/srv/music"] "music/a..b.txt" = .error .Forbidden ∧
    zip_folder_handler fsDots ["/srv/music"] "music/a..b.txt" =
      .error .Forbidden ∧
    zip_selection_entries fsDots ["/srv/music"] ["music/a..b.txt"] = [] := by
  have h := dotdot_substring_blocked fsDots ["/srv/music"] "music/a..b.txt"
    (by decide)
  refine ⟨by decide, by rfl, h.1, h.2.1, ?_⟩
  have h2 := h.2.2 [] []
  simpa [zip_selection_entries] using h2

/-- Claim C5, counterexample: `a..b` contains no `..` segment, so the claim
demands `NotFound` when it fails to resolve — but the handler's substring
check fires first and answers `Forbidden`. -/
theorem file_handler_notfound_cex :
    hasDotDotSegment "a..b" = false ∧
    resolve_path ["/srv/music"] "a..b" = none ∧
    file_handler (.dir true []) ["/srv/music"] "a..b" = .error .Forbidden := by
  exact ⟨by decide, by decide, by rfl⟩

/-- Claim C5 (amended): for download requests whose path does not contain the
substring `..`, the endpoint answers `NotFound` exactly when the path fails
to resolve, the resolved path does not exist, or it is a directory; and
`Internal` exactly when the resolved path is an existing regular file whose
open nevertheless fails. -/
theorem file_handler_error_cases (fs : FsTree) (folders : List String)
    (p : String) (h : containsDotDot p = false) :
    (file_handler fs folders p = .error .NotFound ↔
      resolve_path folders p = none ∨
      ∃ fp, resolve_path folders p = some fp ∧
        (lookup fs fp = none ∨ isDirAt fs fp = true)) ∧
    (file_handler fs folders p = .error .Internal ↔
      ∃ fp sz, resolve_path folders p = some fp ∧
        lookup fs fp = some (.file false sz)) := by
  unfold file_handler
  simp only [h, Bool.false_eq_true, if_false, ite_false]
  cases hres : resolve_path folders p with
  | none => simp
  | some fp =>
    cases hl : lookup fs fp with
    | none => simp [pathExists, isDirAt, hl]
    | some t =>
      cases t with
      | dir ro cs => simp [pathExists, isDirAt, isDirNode, hl]
      | file oo sz =>
        cases oo with
        | true => simp [pathExists, isDirAt, isDirNode, fileOpenAt, hl]
        | false => simp [pathExists, isDirAt, isDirNode, fileOpenAt, hl]

/-- A share whose single file exists but cannot be opened. -/
def fsLocked : FsTree :=
  .dir true [("srv", .dir true [("music", .dir true
    [("locked.txt", .file false (some 2))])])]

/-- Claim C5, witness: an existing but unopenable file yields `Internal`, and
an unresolvable clean path yields `NotFound`. -/
theorem file_handler_error_cases_witness :
    file_handler fsLocked ["/srv/music"] "music/locked.txt" = .error .Internal ∧
    file_handler fsLocked ["/srv/music"] "zzz" = .error .NotFound := by
  constructor
  · exact ((file_handler_error_cases fsLocked ["/srv/music"] "music/locked.txt"
      (by decide)).2).mpr ⟨["srv", "music", "locked.txt"], some 2, by rfl, by rfl⟩
  · exact ((file_handler_error_cases fsLocked ["/srv/music"] "zzz"
      (by decide)).1).mpr (Or.inl (by rfl))

/-- Claim C6: the listing endpoint never fails a non-root request — its
return type is a plain entry list.  When resolution fails the answer is the
empty sequence, and when enumerating the resolved directory fails with an
I/O error the directory is treated as empty instead of propagating the
error. -/
theorem browse_failure_degrades_to_empty (fs : FsTree) (folders : List String)
    (reqPath : String) (hroot : trimSlashes reqPath ≠ "") :
    (resolve_path folders (trimSlashes reqPath) = none →
      browse fs folders reqPath = []) ∧
    (∀ rp, resolve_path folders (trimSlashes reqPath) = some rp →
      readDirAt fs rp = none → browse fs folders reqPath = []) := by
  constructor
  · intro hres
    simp [browse, browsePre, hroot, hres]
  · intro rp hres hrd
    simp [browse, browsePre, hroot, hres, hrd]

/-- Claim C6, witness: an unresolvable path and an unreadable directory both
produce the empty listing. -/
theorem browse_failure_degrades_to_empty_witness :
    browse fsEx ["/srv/music"] "zzz" = [] ∧
    browse fsEx ["/srv/music"] "music/locked" = [] :=
  ⟨(browse_failure_degrades_to_empty fsEx ["/srv/music"] "zzz"
      (by decide)).1 (by rfl),
   (browse_failure_degrades_to_empty fsEx ["/srv/music"] "music/locked"
      (by decide)).2 ["srv", "music", "locked"] (by rfl) (by rfl)⟩

theorem entryLe_eq (a b : FileEntry) :
    entryLe a b =
      (if a.is_dir = b.is_dir then decide (a.name ≤ b.name) else a.is_dir) := by
  unfold entryLe entryCmp
  by_cases hd : a.is_dir = b.is_dir
  · rw [if_pos hd, if_pos hd]
    rcases lt_trichotomy a.name b.name with hlt | heq | hgt
    · rw [if_pos hlt, decide_eq_true (le_of_lt hlt)]
      rfl
    · have hnlt : ¬a.name < b.name := by rw [heq]; exact lt_irrefl _
      rw [if_neg hnlt, if_pos heq, decide_eq_true (le_of_eq heq)]
      rfl
    · have hnlt : ¬a.name < b.name := lt_asymm hgt
      have hne : a.name ≠ b.name := (ne_of_lt hgt).symm
      have hnle : ¬a.name ≤ b.name := not_le.mpr hgt
      rw [if_neg hnlt, if_neg hne, decide_eq_false hnle]
      rfl
  · rw [if_neg hd, if_neg hd]
    by_cases ha : a.is_dir = true
    · rw [if_pos ha, ha]
      rfl
    · have ha' : a.is_dir = false := by
        cases hx : a.is_dir
        · rfl
        · exact absurd hx ha
      rw [if_neg ha, ha']
      rfl

theorem entryLe_trans (a b c : FileEntry)
    (hab : entryLe a b = true) (hbc : entryLe b c = true) :
    entryLe a c = true := by
  rw [entryLe_eq] at hab hbc ⊢
  by_cases h1 : a.is_dir = b.is_dir <;> by_cases h2 : b.is_dir = c.is_dir
  · rw [if_pos h1, decide_eq_true_eq] at hab
    rw [if_pos h2, decide_eq_true_eq] at hbc
    rw [if_pos (h1.trans h2), decide_eq_true_eq]
    exact le_trans hab hbc
  · have h3 : ¬a.is_dir = c.is_dir := fun h => h2 (h1.symm.trans h)
    rw [if_neg h2] at hbc
    rw [if_neg h3, h1]
    exact hbc
  · have h3 : ¬a.is_dir = c.is_dir := fun h => h1 (h.trans h2.symm)
    rw [if_neg h1] at hab
    rw [if_neg h3]
    exact hab
  · rw [if_neg h1] at hab
    rw [if_neg h2] at hbc
    exact absurd (hab.trans hbc.symm) h1

theorem entryLe_total (a b : FileEntry) :
    entryLe a b || entryLe b a := by
  rw [entryLe_eq, entryLe_eq]
  by_cases hd : a.is_dir = b.is_dir
  · rw [if_pos hd, if_pos hd.symm]
    rcases le_total a.name b.name with h | h <;> simp [h]
  · rw [if_neg hd, if_neg (fun h => hd h.symm)]
    cases ha : a.is_dir
    · cases hb : b.is_dir
      · exact absurd (ha.trans hb.symm) hd
      · simp
    · simp

/-- Claim C7: a listing is a pure function of the (unchanged) directory
state, so repeated calls return the same sequence; and the returned sequence
is pairwise ordered with every directory before every file and, within a
kind, ascending names (code-point order, which on UTF-8 agrees with byte
order). -/
theorem browse_repeatable_and_sorted (fs : FsTree) (folders : List String)
    (reqPath : String) :
    browse fs folders reqPath = browse fs folders reqPath ∧
    (browse fs folders reqPath).Pairwise (fun a b =>
      (a.is_dir = true ∧ b.is_dir = false) ∨
      (a.is_dir = b.is_dir ∧ a.name ≤ b.name)) := by
  refine ⟨rfl, ?_⟩
  have hs := @List.sorted_mergeSort FileEntry entryLe
    (fun x y z => entryLe_trans x y z) (fun x y => entryLe_total x y)
    (browsePre fs folders reqPath)
  unfold browse
  refine List.Pairwise.imp ?_ hs
  intro a b h
  rw [entryLe_eq] at h
  by_cases hd : a.is_dir = b.is_dir
  · rw [if_pos hd, decide_eq_true_eq] at h
    exact Or.inr ⟨hd, h⟩
  · rw [if_neg hd] at h
    refine Or.inl ⟨h, ?_⟩
    cases hb : b.is_dir
    · rfl
    · exact absurd (h.trans hb.symm) hd

/-- Claim C8: a resolving non-root listing covers immediate children only —
every returned entry is one of the resolved directory's direct children, with
the entry's kind that child's kind — no entry's name starts with `.`, and
every entry's relative path is the trimmed request path joined with `/` and
the child's name. -/
theorem browse_children_shape (fs : FsTree) (folders : List String)
    (reqPath : String) (rp : List String)
    (hroot : trimSlashes reqPath ≠ "")
    (hres : resolve_path folders (trimSlashes reqPath) = some rp) :
    ∀ e ∈ browse fs folders reqPath,
      (∃ ct, (e.name, ct) ∈ childrenAt fs rp ∧ e.is_dir = isDirNode ct) ∧
      e.path = trimSlashes reqPath ++ "/" ++ e.name ∧
      strStartsWith e.name "." = false := by
  intro e he
  rw [browse, List.mem_mergeSort] at he
  rw [browsePre] at he
  simp only [hroot, ite_false, if_neg, hres] at he
  cases hrd : readDirAt fs rp with
  | none =>
    rw [hrd] at he
    cases he
  | some cs =>
    rw [hrd] at he
    unfold browseChildEntries at he
    rw [List.mem_filterMap] at he
    obtain ⟨c, hc, hce⟩ := he
    by_cases hdot : strStartsWith c.1 "." = true
    · rw [if_pos hdot] at hce
      cases hce
    · rw [if_neg hdot] at hce
      have he' := Option.some.inj hce
      subst he'
      refine ⟨⟨c.2, ?_, rfl⟩, rfl, by simpa using hdot⟩
      have hcs : childrenAt fs rp = cs := by
        rw [childrenAt, hrd]
        rfl
      rw [hcs]
      simpa using hc

/-- The plain visible file row of `fsEx`'s `music` listing. -/
def entryATxt : FileEntry :=
  { name := "a.txt", path := "music/a.txt", is_dir := false, size := some 1 }

/-- Claim C8, witness: the visible plain file of `fsEx` appears in the
listing of `music` with the joined relative path and a non-hidden name. -/
theorem browse_children_shape_witness :
    entryATxt.path = trimSlashes "music" ++ "/" ++ entryATxt.name ∧
    strStartsWith entryATxt.name "." = false := by
  have h := browse_children_shape fsEx ["/srv/music"] "music" ["srv", "music"]
    (by decide) (by rfl)
  have hmem : entryATxt ∈ browse fsEx ["/srv/music"] "music" := by
    rw [browse, List.mem_mergeSort]
    decide
  exact ⟨(h _ hmem).2.1, (h _ hmem).2.2⟩

mutual

theorem zipWalkNames_spec : ∀ (parentPath base : List String) (t : FsTree),
    allOk t = true →
    zipWalkNames parentPath (parentPath ++ base) t =
      (filesRel t).map (fun q => String.intercalate "/" (base ++ q))
  | _, _, .file _ _, _ => by
    simp [zipWalkNames, filesRel]
  | parentPath, base, .dir readOk cs, h => by
    have h' : readOk = true ∧ allOkChildren cs = true := by
      simpa [allOk, Bool.and_eq_true] using h
    rw [zipWalkNames, filesRel, if_pos h'.1]
    exact zipWalkChildren_spec parentPath base cs h'.2

theorem zipWalkChildren_spec : ∀ (parentPath base : List String)
    (cs : List (String × FsTree)), allOkChildren cs = true →
    zipWalkChildren parentPath (parentPath ++ base) cs =
      (filesRelChildren cs).map (fun q => String.intercalate "/" (base ++ q))
  | _, _, [], _ => by
    simp [zipWalkChildren, filesRelChildren]
  | parentPath, base, (n, c) :: rest, h => by
    have h' : allOk c = true ∧ allOkChildren rest = true := by
      simpa [allOkChildren, Bool.and_eq_true] using h
    have htail := zipWalkChildren_spec parentPath base rest h'.2
    have hassoc : parentPath ++ base ++ [n] = parentPath ++ (base ++ [n]) :=
      List.append_assoc _ _ _
    cases c with
    | file oo sz =>
      have hoo : oo = true := by simpa [allOk] using h'.1
      subst hoo
      simp only [zipWalkChildren, filesRelChildren, if_pos rfl, ite_true,
        List.map_append, List.map_cons, List.map_nil]
      rw [htail, hassoc, stripPrefixComps_append]
    | dir ro cs2 =>
      simp only [zipWalkChildren, filesRelChildren, List.map_append,
        List.map_map]
      rw [htail, hassoc, zipWalkNames_spec parentPath (base ++ [n]) _ h'.1]
      simp [Function.comp_def, List.append_assoc]

end

/-- Claim C4: a folder-zip request that resolves to an existing directory,
traversed without I/O failures, produces exactly one archive entry per
regular file reachable from the target; each entry is named by the file's
path relative to the target's parent directory, i.e. the target's own final
name followed by the file's path inside the target, so the folder name is
the top-level prefix of every member — and directories contribute no entry
of their own, every member arising from a file. -/
theorem zip_folder_entries (fs : FsTree) (folders : List String) (path : String)
    (tp : List String) (t : FsTree) (nm : String)
    (hdd : containsDotDot path = false)
    (hres : resolve_path folders path = some tp)
    (hlook : lookup fs tp = some t)
    (hdir : isDirNode t = true)
    (hok : allOk t = true)
    (hnm : tp.getLast? = some nm) :
    zip_folder_handler fs folders path =
      .ok ((filesRel t).map (fun q => String.intercalate "/" (nm :: q))) := by
  obtain ⟨ro, cs, rfl⟩ : ∃ ro cs, t = .dir ro cs := by
    cases t with
    | file oo sz => cases hdir
    | dir ro cs => exact ⟨ro, cs, rfl⟩
  have htp : tp.dropLast ++ [nm] = tp :=
    List.dropLast_append_getLast? nm hnm
  unfold zip_folder_handler
  simp only [hdd, Bool.false_eq_true, if_false, ite_false, hres, hlook]
  congr 1
  calc zipWalkNames tp.dropLast tp (.dir ro cs)
      = zipWalkNames tp.dropLast (tp.dropLast ++ [nm]) (.dir ro cs) := by
        rw [htp]
    _ = (filesRel (.dir ro cs)).map
          (fun q => String.intercalate "/" ([nm] ++ q)) :=
        zipWalkNames_spec _ _ _ hok
    _ = (filesRel (.dir ro cs)).map
          (fun q => String.intercalate "/" (nm :: q)) := by
        simp

/-- The example share of the spec's §8 scenario: `/shared/Docs` holding
`a.txt` and `sub/b.txt`. -/
def fsDocs : FsTree :=
  .dir true [("shared", .dir true [("Docs", .dir true
    [("a.txt", .file true (some 3)),
     ("sub", .dir true [("b.txt", .file true none)])])])]

/-- The subtree of `fsDocs` at `/shared/Docs`. -/
def docsTree : FsTree :=
  .dir true
    [("a.txt", .file true (some 3)),
     ("sub", .dir true [("b.txt", .file true none)])]

/-- Claim C4, witness: zipping `Docs` yields exactly the entries
`Docs/a.txt` and `Docs/sub/b.txt`, named relative to the folder's parent. -/
theorem zip_folder_entries_witness :
    zip_folder_handler fsDocs ["/shared/Docs"] "Docs" =
      .ok ["Docs/a.txt", "Docs/sub/b.txt"] := by
  rw [zip_folder_entries fsDocs ["/shared/Docs"] "Docs" ["shared", "Docs"]
    docsTree "Docs" (by decide) (by rfl) (by rfl) (by rfl) (by rfl) (by rfl)]
  rfl

mutual

theorem selWalkNames_spec : ∀ (rel : String) (fullPath base : List String)
    (t : FsTree), allOk t = true →
    selWalkNames rel fullPath (fullPath ++ base) t =
      (filesRel t).map
        (fun q => rel ++ "/" ++ String.intercalate "/" (base ++ q))
  | _, _, _, .file _ _, _ => by
    simp [selWalkNames, filesRel]
  | rel, fullPath, base, .dir readOk cs, h => by
    have h' : readOk = true ∧ allOkChildren cs = true := by
      simpa [allOk, Bool.and_eq_true] using h
    rw [selWalkNames, filesRel, if_pos h'.1]
    exact selWalkChildren_spec rel fullPath base cs h'.2

theorem selWalkChildren_spec : ∀ (rel : String) (fullPath base : List String)
    (cs : List (String × FsTree)), allOkChildren cs = true →
    selWalkChildren rel fullPath (fullPath ++ base) cs =
      (filesRelChildren cs).map
        (fun q => rel ++ "/" ++ String.intercalate "/" (base ++ q))
  | _, _, _, [], _ => by
    simp [selWalkChildren, filesRelChildren]
  | rel, fullPath, base, (n, c) :: rest, h => by
    have h' : allOk c = true ∧ allOkChildren rest = true := by
      simpa [allOkChildren, Bool.and_eq_true] using h
    have htail := selWalkChildren_spec rel fullPath base rest h'.2
    have hassoc : fullPath ++ base ++ [n] = fullPath ++ (base ++ [n]) :=
      List.append_assoc _ _ _
    cases c with
    | file oo sz =>
      have hoo : oo = true := by simpa [allOk] using h'.1
      subst hoo
      simp only [selWalkChildren, filesRelChildren, if_pos rfl, ite_true,
        List.map_append, List.map_cons, List.map_nil]
      rw [htail, hassoc, stripPrefixComps_append]
    | dir ro cs2 =>
      simp only [selWalkChildren, filesRelChildren, List.map_append,
        List.map_map]
      rw [htail, hassoc, selWalkNames_spec rel fullPath (base ++ [n]) _ h'.1]
      simp [Function.comp_def, List.append_assoc]

end

theorem selItemEntries_eq_spec (fs : FsTree) (folders : List String)
    (rel : String) (hok : selItemOk fs folders rel = true) :
    selItemEntries fs folders rel = specSelItem fs folders rel := by
  unfold selItemEntries specSelItem
  by_cases hdd : containsDotDot rel = true
  · simp [hdd]
  · have hdd' : containsDotDot rel = false := by
      cases hx : containsDotDot rel
      · rfl
      · exact absurd hx hdd
    simp only [hdd', Bool.false_eq_true, if_false, ite_false]
    cases hres : resolve_path folders rel with
    | none => simp
    | some fp =>
      have hok' : (match lookup fs fp with
          | none => true
          | some t => allOk t) = true := by
        unfold selItemOk at hok
        rw [hdd'] at hok
        simpa [hres] using hok
      cases hl : lookup fs fp with
      | none => simp [hl]
      | some t =>
        rw [hl] at hok'
        cases t with
        | file oo sz =>
          have hoo : oo = true := by simpa [allOk] using hok'
          simp [hl, hoo]
        | dir ro cs =>
          have hok'' : allOk (FsTree.dir ro cs) = true := by
            simpa using hok'
          have hw := selWalkNames_spec rel fp [] (.dir ro cs) hok''
          rw [List.append_nil] at hw
          simp [hl, hw]

/-- Claim C3: when the selected items hit no I/O failure, the archive of a
selection request consists of exactly the entries the naming rule dictates:
a requested path resolving to a file contributes one entry named by the
request string verbatim, and a requested path resolving to a directory
contributes one entry per descendant regular file, named by the request
string, then `/`, then the file's path relative to the selected directory
(`specSelItem`, written from the spec's words). -/
theorem zip_selection_member_names (fs : FsTree) (folders : List String)
    (files : List String)
    (h : ∀ rel ∈ files, selItemOk fs folders rel = true) :
    zip_selection_entries fs folders files =
      files.flatMap (specSelItem fs folders) := by
  unfold zip_selection_entries
  induction files with
  | nil => rfl
  | cons rel rest ih =>
    rw [List.flatMap_cons, List.flatMap_cons]
    rw [ih (fun r hr => h r (List.mem_cons_of_mem _ hr))]
    rw [selItemEntries_eq_spec fs folders rel (h rel (List.mem_cons_self _ _))]

/-- The spec's §8 selection scenario: `/srv/music/song.mp3` and
`/srv/photos/2023/img.jpg`. -/
def fsSel : FsTree :=
  .dir true [("srv", .dir true
    [("music", .dir true [("song.mp3", .file true (some 5))]),
     ("photos", .dir true
       [("2023", .dir true [("img.jpg", .file true (some 7))])])])]

/-- Claim C3, witness: selecting the file `music/song.mp3` and the folder
`photos` yields exactly the members `music/song.mp3` and
`photos/2023/img.jpg`. -/
theorem zip_selection_member_names_witness :
    zip_selection_entries fsSel ["/srv/music", "/srv/photos"]
        ["music/song.mp3", "photos"] =
      ["music/song.mp3", "photos/2023/img.jpg"] := by
  rw [zip_selection_member_names fsSel ["/srv/music", "/srv/photos"]
    ["music/song.mp3", "photos"] (by decide)]
  rfl

end HFS
